import Mathlib

/-!
Verification of the LogBook journaling core (pkg/journal, pkg/review,
pkg/oneline) against its specification.

Go strings are modelled as `List Char` (`GoStr`).  Functions below are
line-by-line translations of the Go source:

* `splitLines` / `joinWith`   — `strings.Split(s, "\n")` / `strings.Join`
* `trimSpace`                 — `strings.TrimSpace` (whitespace set per
                                 `unicode.IsSpace`, Latin-1 range)
* `hasPrefix` / `hasSuffix`   — `strings.HasPrefix` / `strings.HasSuffix`
* `extractSummaryContent`     — `journal.ExtractSummary` (pure part, on
                                 the file content; identical copy in
                                 `oneline.extractSummary`)
* `isSummaryMissing`          — summary-existence check at the top of
                                 `journal.GenerateSummaryIfMissing`
* `injectSummary`             — summary insertion builder shared by
                                 `journal.GenerateSummaryIfMissing` and
                                 `oneline.saveSummaryToFile`
* `appendToLog`               — `journal.AppendToLog` (pure part; the
                                 rendered entry line is a parameter, the
                                 template renderer being an external
                                 collaborator)

File I/O is modelled by passing the file content in and out; an operation
that returns an error before its `os.WriteFile` call leaves the content
unchanged.
-/

namespace LogBook

/-- A Go string: a sequence of characters. -/
abbrev GoStr := List Char

/-- Whitespace per Go `unicode.IsSpace` (Latin-1 range: TAB..CR, space,
NEL, NBSP).  Higher Unicode space code points do not occur in the
documents this development reasons about. -/
def isSpace (c : Char) : Bool :=
  (9 ≤ c.toNat && c.toNat ≤ 13) || c.toNat == 32 || c.toNat == 133 || c.toNat == 160

/-- Go `strings.TrimSpace`: drop leading and trailing whitespace. -/
def trimSpace (s : GoStr) : GoStr :=
  ((s.dropWhile isSpace).reverse.dropWhile isSpace).reverse

/-- Go `strings.HasPrefix s pre`. -/
def hasPrefix (s pre : GoStr) : Bool :=
  pre.isPrefixOf s

/-- Go `strings.HasSuffix s suf`. -/
def hasSuffix (s suf : GoStr) : Bool :=
  hasPrefix s.reverse suf.reverse

/-- Go `strings.Split(s, "\n")`. -/
def splitLines : GoStr → List GoStr
  | [] => [[]]
  | c :: rest =>
    if c = '\n' then [] :: splitLines rest
    else
      match splitLines rest with
      | [] => [[c]]
      | l :: ls => (c :: l) :: ls

/-- Tail part of Go `strings.Join(ls, sep)` for a one-character separator. -/
def joinRest (sep : Char) : List GoStr → GoStr
  | [] => []
  | l :: ls => sep :: (l ++ joinRest sep ls)

/-- Go `strings.Join(ls, sep)` for a one-character separator. -/
def joinWith (sep : Char) : List GoStr → GoStr
  | [] => []
  | l :: ls => l ++ joinRest sep ls

/-- Go `strings.Join(ls, "\n")`. -/
def joinLines (ls : List GoStr) : GoStr := joinWith '\n' ls

/-- Go `strings.Join(ls, " ")`. -/
def joinSpace (ls : List GoStr) : GoStr := joinWith ' ' ls

theorem splitLines_cons (c : Char) (s : GoStr) :
    splitLines (c :: s) =
      if c = '\n' then [] :: splitLines s
      else
        match splitLines s with
        | [] => [[c]]
        | l :: ls => (c :: l) :: ls := rfl

theorem splitLines_ne_nil (s : GoStr) : splitLines s ≠ [] := by
  induction s with
  | nil => simp [splitLines]
  | cons c rest ih =>
    rw [splitLines_cons]
    split
    · simp
    · cases h : splitLines rest with
      | nil => simp
      | cons l ls => simp

theorem splitLines_append_cons (a b : GoStr) :
    splitLines (a ++ '\n' :: b) = splitLines a ++ splitLines b := by
  induction a with
  | nil => simp [splitLines, splitLines_cons]
  | cons c rest ih =>
    rw [List.cons_append, splitLines_cons, splitLines_cons]
    by_cases hc : c = '\n'
    · rw [if_pos hc, if_pos hc, ih]
      rfl
    · rw [if_neg hc, if_neg hc, ih]
      cases h : splitLines rest with
      | nil => exact absurd h (splitLines_ne_nil rest)
      | cons l ls => simp

theorem splitLines_noNL {s : GoStr} {l : GoStr} (hl : l ∈ splitLines s) : '\n' ∉ l := by
  induction s generalizing l with
  | nil =>
    simp [splitLines] at hl
    simp [hl]
  | cons c rest ih =>
    rw [splitLines_cons] at hl
    by_cases hc : c = '\n'
    · rw [if_pos hc] at hl
      rcases List.mem_cons.mp hl with h | h
      · simp [h]
      · exact ih h
    · rw [if_neg hc] at hl
      cases h : splitLines rest with
      | nil => exact absurd h (splitLines_ne_nil rest)
      | cons m ms =>
        rw [h] at hl
        rcases List.mem_cons.mp hl with h' | h'
        · subst h'
          intro hmem
          rcases List.mem_cons.mp hmem with h'' | h''
          · exact hc h''.symm
          · exact ih (h ▸ List.mem_cons_self m ms) h''
        · exact ih (h ▸ List.mem_cons_of_mem m h')

theorem splitLines_eq_self {s : GoStr} (hs : '\n' ∉ s) : splitLines s = [s] := by
  induction s with
  | nil => simp [splitLines]
  | cons c rest ih =>
    have hc : c ≠ '\n' := fun h => hs (h ▸ List.mem_cons_self c rest)
    have hrest : '\n' ∉ rest := fun h => hs (List.mem_cons_of_mem c h)
    rw [splitLines_cons, if_neg hc, ih hrest]

theorem joinLines_splitLines (s : GoStr) : joinLines (splitLines s) = s := by
  induction s with
  | nil => simp [splitLines, joinLines, joinWith, joinRest]
  | cons c rest ih =>
    simp only [splitLines]
    by_cases hc : c = '\n'
    · subst hc
      rw [if_pos rfl]
      cases h : splitLines rest with
      | nil => exact absurd h (splitLines_ne_nil rest)
      | cons l ls =>
        rw [h] at ih
        simp only [joinLines, joinWith, joinRest, List.nil_append]
        simpa [joinLines, joinWith] using ih
    · rw [if_neg hc]
      cases h : splitLines rest with
      | nil => exact absurd h (splitLines_ne_nil rest)
      | cons l ls =>
        rw [h] at ih
        simp only [joinLines, joinWith] at ih ⊢
        rw [List.cons_append, ih]

theorem splitLines_joinLines {ls : List GoStr} (hne : ls ≠ [])
    (hnl : ∀ l ∈ ls, '\n' ∉ l) : splitLines (joinLines ls) = ls := by
  induction ls with
  | nil => exact absurd rfl hne
  | cons l rest ih =>
    cases rest with
    | nil =>
      simp only [joinLines, joinWith, joinRest, List.append_nil]
      exact splitLines_eq_self (hnl l (List.mem_cons_self l []))
    | cons m ms =>
      have : joinLines (l :: m :: ms) = l ++ '\n' :: joinLines (m :: ms) := by
        simp [joinLines, joinWith, joinRest]
      rw [this, splitLines_append_cons,
        splitLines_eq_self (hnl l (List.mem_cons_self l (m :: ms))),
        ih (by simp) (fun x hx => hnl x (List.mem_cons_of_mem l hx))]
      simp

theorem joinLines_append_single (ls : List GoStr) (x : GoStr) (hne : ls ≠ []) :
    joinLines (ls ++ [x]) = joinLines ls ++ '\n' :: x := by
  induction ls with
  | nil => exact absurd rfl hne
  | cons l rest ih =>
    cases rest with
    | nil => simp [joinLines, joinWith, joinRest]
    | cons m ms =>
      have h1 : joinLines ((l :: m :: ms) ++ [x]) = l ++ '\n' :: joinLines ((m :: ms) ++ [x]) := by
        simp [joinLines, joinWith, joinRest]
      have h2 : joinLines (l :: m :: ms) = l ++ '\n' :: joinLines (m :: ms) := by
        simp [joinLines, joinWith, joinRest]
      rw [h1, h2, ih (by simp)]
      simp

theorem mem_dropWhile {α : Type} {p : α → Bool} {l : List α} {x : α}
    (h : x ∈ l.dropWhile p) : x ∈ l := by
  induction l with
  | nil => simp at h
  | cons a l' ih =>
    rw [List.dropWhile_cons] at h
    split at h
    · exact List.mem_cons_of_mem a (ih h)
    · exact h

theorem dropWhile_idem {α : Type} (p : α → Bool) (l : List α) :
    (l.dropWhile p).dropWhile p = l.dropWhile p := by
  induction l with
  | nil => simp
  | cons a l' ih =>
    rw [List.dropWhile_cons]
    split
    · exact ih
    · rw [List.dropWhile_cons]
      simp_all

theorem dropWhile_suffix {α : Type} (p : α → Bool) (l : List α) :
    l.dropWhile p <:+ l := by
  induction l with
  | nil => simp
  | cons a l' ih =>
    rw [List.dropWhile_cons]
    split
    · exact ih.trans (List.suffix_cons a l')
    · exact List.suffix_refl _

theorem isPrefix_head? {α : Type} {u' u : List α} (h : u' <+: u) (hne : u' ≠ []) :
    u'.head? = u.head? := by
  obtain ⟨t, rfl⟩ := h
  cases u' with
  | nil => exact absurd rfl hne
  | cons a l => simp

/-- Left trim (`dropWhile` on whitespace). -/
def trimLeft (s : GoStr) : GoStr := s.dropWhile isSpace

/-- Right trim. -/
def trimRight (s : GoStr) : GoStr := (s.reverse.dropWhile isSpace).reverse

theorem trimSpace_eq_trimRight_trimLeft (s : GoStr) :
    trimSpace s = trimRight (trimLeft s) := rfl

theorem trimLeft_idem (s : GoStr) : trimLeft (trimLeft s) = trimLeft s :=
  dropWhile_idem isSpace s

theorem trimRight_idem (s : GoStr) : trimRight (trimRight s) = trimRight s := by
  simp only [trimRight, List.reverse_reverse, dropWhile_idem]

theorem trimLeft_eq_self_head {s : GoStr} (h : trimLeft s = s) :
    s = [] ∨ ∃ a t, s = a :: t ∧ isSpace a = false := by
  cases s with
  | nil => exact Or.inl rfl
  | cons a t =>
    right
    refine ⟨a, t, rfl, ?_⟩
    by_contra hsp
    have hsp' : isSpace a = true := by
      cases h' : isSpace a
      · exact absurd h' hsp
      · rfl
    rw [trimLeft, List.dropWhile_cons, if_pos hsp'] at h
    have hlen := (List.dropWhile_sublist (p := isSpace) (l := t)).length_le
    have h2 := congrArg List.length h
    simp at h2
    omega

theorem trimRight_prefix (s : GoStr) : trimRight s <+: s := by
  have := dropWhile_suffix isSpace s.reverse
  have h2 := List.IsSuffix.reverse this
  simpa [trimRight] using h2

theorem trimLeft_trimRight_of_trimmed {s : GoStr} (h : trimLeft s = s) :
    trimLeft (trimRight s) = trimRight s := by
  rcases trimLeft_eq_self_head h with h0 | ⟨a, t, rfl, ha⟩
  · subst h0
    rfl
  · cases hTR : trimRight (a :: t) with
    | nil => rfl
    | cons b u =>
      have hpre : trimRight (a :: t) <+: a :: t := trimRight_prefix (a :: t)
      rw [hTR] at hpre
      have hb : b = a := by
        have := isPrefix_head? hpre (by simp)
        simpa using this
      subst hb
      rw [trimLeft, List.dropWhile_cons, if_neg (by simp [ha])]

theorem trimSpace_idem (s : GoStr) : trimSpace (trimSpace s) = trimSpace s := by
  rw [trimSpace_eq_trimRight_trimLeft, trimSpace_eq_trimRight_trimLeft,
    trimLeft_trimRight_of_trimmed (trimLeft_idem s), trimRight_idem]

theorem trimSpace_nil : trimSpace [] = [] := rfl

theorem mem_trimSpace {s : GoStr} {c : Char} (h : c ∈ trimSpace s) : c ∈ s := by
  rw [trimSpace_eq_trimRight_trimLeft] at h
  rw [trimRight] at h
  rw [List.mem_reverse] at h
  have h1 := mem_dropWhile h
  rw [List.mem_reverse] at h1
  exact mem_dropWhile h1

theorem hasPrefix_iff {s p : GoStr} : hasPrefix s p = true ↔ p <+: s := by
  rw [hasPrefix]
  exact List.isPrefixOf_iff_prefix

theorem hasPrefix_mono {t p q : GoStr} (hpq : hasPrefix q p = true)
    (h : hasPrefix t q = true) : hasPrefix t p = true :=
  hasPrefix_iff.mpr ((hasPrefix_iff.mp hpq).trans (hasPrefix_iff.mp h))

theorem hasPrefix_ne_nil {t p : GoStr} (h : hasPrefix t p = true) (hp : p ≠ []) :
    t ≠ [] := by
  obtain ⟨u, rfl⟩ := hasPrefix_iff.mp h
  cases p with
  | nil => exact absurd rfl hp
  | cons a l => simp

theorem hasPrefix_head? {t p : GoStr} (h : hasPrefix t p = true) (hp : p ≠ []) :
    t.head? = p.head? :=
  (isPrefix_head? (hasPrefix_iff.mp h) hp).symm

/-- The `"# LOG"` heading marker from `journal.ExtractSummary` and
`journal.AppendToLog`. -/
def logHeadingStr : GoStr := "# LOG".data

/-- The `"# One-line note"` heading marker from `journal.ExtractSummary`. -/
def oneLineHeadingStr : GoStr := "# One-line note".data

/-- The `"<!--"` HTML comment marker. -/
def commentStr : GoStr := "<!--".data

/-- The `"#"` heading marker. -/
def hashStr : GoStr := "#".data

/-- The scanning loop of `journal.ExtractSummary` (pkg/journal/journal.go,
lines 304-329; identical in `oneline.extractSummary`): `reading` is the
`readingSummary` flag, `acc` the `summaryLines` accumulator.  The loop
starts at line index 1 of the document. -/
def extractLoop : List GoStr → Bool → List GoStr → List GoStr
  | [], _, acc => acc
  | line :: rest, reading, acc =>
    let t := trimSpace line
    if hasPrefix t logHeadingStr || hasPrefix t oneLineHeadingStr then acc
    else if t = [] then
      if reading then acc else extractLoop rest reading acc
    else if hasPrefix t commentStr then extractLoop rest reading acc
    else if !reading && hasPrefix t hashStr then extractLoop rest reading acc
    else extractLoop rest true (acc ++ [t])

/-- `journal.ExtractSummary` applied to the file content (the I/O part
reads the file; a missing file yields the empty summary upstream).
Captured trimmed lines are joined with a single space; no capture yields
the empty string. -/
def extractSummaryContent (content : GoStr) : GoStr :=
  joinSpace (extractLoop ((splitLines content).drop 1) false [])

/-- The summary-existence scan at the top of
`journal.GenerateSummaryIfMissing` (lines 165-180): starting at line 1,
skip empty lines and HTML comments; a heading means no summary; any other
non-empty line means a summary exists. -/
def missingLoop : List GoStr → Bool
  | [] => true
  | line :: rest =>
    let t := trimSpace line
    if t = [] then missingLoop rest
    else if hasPrefix t commentStr then missingLoop rest
    else if hasPrefix t hashStr then true
    else false

/-- `isSummaryMissing` computed by `journal.GenerateSummaryIfMissing` on
the file content. -/
def isSummaryMissing (content : GoStr) : Bool :=
  missingLoop ((splitLines content).drop 1)

/-- Line 0 of the document (`lines[0]`; `strings.Split` never returns an
empty slice, so the default is never used). -/
def docTitle (content : GoStr) : GoStr := (splitLines content).headD []

/-- Whether line 1 exists and is an HTML comment
(`len(lines) > 1 && strings.HasPrefix(strings.TrimSpace(lines[1]), "<!--")`). -/
def docHasComment (content : GoStr) : Bool :=
  decide (1 < (splitLines content).length)
    && hasPrefix (trimSpace ((splitLines content).getD 1 [])) commentStr

/-- The remainder `lines[startIdx:]` after the title, the optional
comment, and the skipped run of empty lines, as in the insertion builders
of `journal.GenerateSummaryIfMissing` (lines 236-243) and
`oneline.saveSummaryToFile`. -/
def docRestAfterLead (content : GoStr) : List GoStr :=
  ((splitLines content).drop (if docHasComment content then 2 else 1)).dropWhile
    (fun l => (trimSpace l).isEmpty)

/-- The summary-insertion builder shared by
`journal.GenerateSummaryIfMissing` (lines 220-245) and
`oneline.saveSummaryToFile` (lines 126-153): keep the title, keep line 1
if it is an HTML comment, write the trimmed summary followed by one blank
line, skip any empty lines, then append the remainder of the document
joined by newlines (nothing if no remainder). -/
def injectSummary (content summary : GoStr) : GoStr :=
  docTitle content ++ '\n' ::
    ((if docHasComment content then (splitLines content).getD 1 [] ++ ['\n'] else [])
      ++ (trimSpace summary ++ '\n' :: '\n' ::
        (if (docRestAfterLead content).isEmpty then []
         else joinLines (docRestAfterLead content))))

example : extractSummaryContent ("# T\n\nHello world\nsecond line\n\n# LOG\n".data)
    = "Hello world second line".data := by decide

example : extractSummaryContent ("# T\n\n### Sub\n\n# LOG\nentry\n".data) = [] := by decide

example : isSummaryMissing ("# Daily Log\n\n## LOG\n".data) = true := by decide

example : isSummaryMissing ("# Daily Log\nExisting summary.\n\n## LOG\n".data) = false := by decide

example : injectSummary ("# Daily Log\n\n## LOG\n".data) ("AI generated summary.".data)
    = "# Daily Log\nAI generated summary.\n\n## LOG\n".data := by decide

example : injectSummary ("# T\n<!-- c -->\n\nbody\n".data) ("S".data)
    = "# T\n<!-- c -->\nS\n\nbody\n".data := by decide

theorem extractLoop_cons (line : GoStr) (rest : List GoStr) (reading : Bool)
    (acc : List GoStr) :
    extractLoop (line :: rest) reading acc =
      (let t := trimSpace line
       if hasPrefix t logHeadingStr || hasPrefix t oneLineHeadingStr then acc
       else if t = [] then
         if reading then acc else extractLoop rest reading acc
       else if hasPrefix t commentStr then extractLoop rest reading acc
       else if !reading && hasPrefix t hashStr then extractLoop rest reading acc
       else extractLoop rest true (acc ++ [t])) := rfl

theorem heads_conflict {t p q : GoStr} (hp : hasPrefix t p = true) (hpn : p ≠ [])
    (hqn : q ≠ []) (hne : p.head? ≠ q.head?) : hasPrefix t q = false := by
  cases hq : hasPrefix t q
  · rfl
  · exact absurd ((hasPrefix_head? hp hpn).symm.trans (hasPrefix_head? hq hqn)) hne

theorem comment_facts {t : GoStr} (h : hasPrefix t commentStr = true) :
    hasPrefix t logHeadingStr = false ∧ hasPrefix t oneLineHeadingStr = false ∧
    hasPrefix t hashStr = false ∧ t ≠ [] :=
  ⟨heads_conflict h (by decide) (by decide) (by decide),
   heads_conflict h (by decide) (by decide) (by decide),
   heads_conflict h (by decide) (by decide) (by decide),
   hasPrefix_ne_nil h (by decide)⟩

theorem nonhash_facts {t : GoStr} (h : hasPrefix t hashStr = false) :
    hasPrefix t logHeadingStr = false ∧ hasPrefix t oneLineHeadingStr = false := by
  constructor
  · cases hl : hasPrefix t logHeadingStr
    · rfl
    · rw [hasPrefix_mono (p := hashStr) (by decide) hl] at h
      exact absurd h (by simp)
  · cases hl : hasPrefix t oneLineHeadingStr
    · rfl
    · rw [hasPrefix_mono (p := hashStr) (by decide) hl] at h
      exact absurd h (by simp)

theorem hash_facts {t : GoStr} (h : hasPrefix t hashStr = true) :
    hasPrefix t commentStr = false ∧ t ≠ [] :=
  ⟨heads_conflict h (by decide) (by decide) (by decide),
   hasPrefix_ne_nil h (by decide)⟩

theorem extractLoop_step_comment {line : GoStr} (rest : List GoStr) (reading : Bool)
    (acc : List GoStr) (h : hasPrefix (trimSpace line) commentStr = true) :
    extractLoop (line :: rest) reading acc = extractLoop rest reading acc := by
  obtain ⟨h1, h2, _, h4⟩ := comment_facts h
  rw [extractLoop_cons]
  simp [h1, h2, h, h4]

theorem extractLoop_step_capture {line : GoStr} (rest : List GoStr)
    (acc : List GoStr) (hne : trimSpace line ≠ [])
    (hhash : hasPrefix (trimSpace line) hashStr = false)
    (hcomm : hasPrefix (trimSpace line) commentStr = false) :
    extractLoop (line :: rest) false acc = extractLoop rest true (acc ++ [trimSpace line]) := by
  obtain ⟨h1, h2⟩ := nonhash_facts hhash
  rw [extractLoop_cons]
  simp [h1, h2, hcomm, hhash, hne]

theorem extractLoop_step_empty {line : GoStr} (rest : List GoStr)
    (acc : List GoStr) (hemp : trimSpace line = []) :
    extractLoop (line :: rest) true acc = acc := by
  rw [extractLoop_cons]
  simp only [hemp]
  simp [hasPrefix]

theorem extractLoop_step_break {line : GoStr} (rest : List GoStr) (reading : Bool)
    (acc : List GoStr)
    (h : hasPrefix (trimSpace line) logHeadingStr = true ∨
      hasPrefix (trimSpace line) oneLineHeadingStr = true) :
    extractLoop (line :: rest) reading acc = acc := by
  rw [extractLoop_cons]
  rcases h with h | h <;> simp [h]

theorem getD_one_mem {ls : List GoStr} (h : 1 < ls.length) : ls.getD 1 [] ∈ ls := by
  rw [List.getD_eq_getElem?_getD, List.getElem?_eq_getElem h]
  exact List.getElem_mem _

theorem docTitle_noNL (content : GoStr) : '\n' ∉ docTitle content := by
  rw [docTitle]
  cases h : splitLines content with
  | nil => exact absurd h (splitLines_ne_nil content)
  | cons t ts =>
    have : t ∈ splitLines content := h ▸ List.mem_cons_self t ts
    simpa using splitLines_noNL this

theorem docRest_mem {content : GoStr} {l : GoStr} (h : l ∈ docRestAfterLead content) :
    l ∈ splitLines content := by
  rw [docRestAfterLead] at h
  exact List.mem_of_mem_drop (mem_dropWhile h)

/-- Structure of the injected document: splitting the builder output
yields the title, the optional comment line, the trimmed summary, one
empty line, then the remainder (one empty line when no remainder). -/
theorem splitLines_injectSummary (content S : GoStr) (hS : '\n' ∉ S) :
    splitLines (injectSummary content S) =
      docTitle content ::
        ((if docHasComment content then [(splitLines content).getD 1 []] else [])
          ++ trimSpace S :: [] ::
            (if docRestAfterLead content = [] then [[]]
             else docRestAfterLead content)) := by
  have htrimS : '\n' ∉ trimSpace S := fun h => hS (mem_trimSpace h)
  have hrest_noNL : ∀ l ∈ docRestAfterLead content, '\n' ∉ l := fun l hl =>
    splitLines_noNL (docRest_mem hl)
  rw [injectSummary, splitLines_append_cons,
    splitLines_eq_self (docTitle_noNL content)]
  have htail : splitLines
      (trimSpace S ++ '\n' :: '\n' ::
        (if (docRestAfterLead content).isEmpty then []
         else joinLines (docRestAfterLead content))) =
      trimSpace S :: [] ::
        (if docRestAfterLead content = [] then [[]] else docRestAfterLead content) := by
    rw [splitLines_append_cons, splitLines_eq_self htrimS, splitLines_cons, if_pos rfl]
    cases hR : docRestAfterLead content with
    | nil => simp [splitLines]
    | cons r rs =>
      rw [hR] at hrest_noNL
      have hsj := @splitLines_joinLines (r :: rs) (by simp) hrest_noNL
      simp [hsj]
  by_cases hc : docHasComment content = true
  · have hlen : 1 < (splitLines content).length := by
      rw [docHasComment, Bool.and_eq_true, decide_eq_true_eq] at hc
      exact hc.1
    have hcom_noNL : '\n' ∉ (splitLines content).getD 1 [] :=
      splitLines_noNL (getD_one_mem hlen)
    rw [if_pos hc, if_pos hc]
    have : ((splitLines content).getD 1 [] ++ ['\n']) ++
        (trimSpace S ++ '\n' :: '\n' ::
          (if (docRestAfterLead content).isEmpty then []
           else joinLines (docRestAfterLead content))) =
        (splitLines content).getD 1 [] ++ '\n' ::
          (trimSpace S ++ '\n' :: '\n' ::
            (if (docRestAfterLead content).isEmpty then []
             else joinLines (docRestAfterLead content))) := by
      simp
    rw [this, splitLines_append_cons, splitLines_eq_self hcom_noNL, htail]
    simp
  · rw [if_neg hc, if_neg hc]
    rw [List.nil_append, htail]
    simp

theorem extractLoop_capture_then_empty (R : List GoStr) (u : GoStr)
    (hu : trimSpace u = u) (hne : u ≠ [])
    (hhash : hasPrefix u hashStr = false)
    (hcomm : hasPrefix u commentStr = false) :
    extractLoop (u :: ([] : GoStr) :: R) false [] = [u] := by
  rw [extractLoop_step_capture _ _ (by rw [hu]; exact hne) (by rw [hu]; exact hhash)
    (by rw [hu]; exact hcomm)]
  rw [extractLoop_step_empty _ _ trimSpace_nil, hu]
  simp

/-- C1 counterexample: injecting the two-line summary text `"a\nb"` into a
document whose summary is missing and extracting again yields `"a b"`,
not `trim("a\nb")`. -/
theorem c1_counterexample :
    isSummaryMissing ("# Title\n\n# LOG\n".data) = true ∧
    extractSummaryContent
        (injectSummary ("# Title\n\n# LOG\n".data) ("a\nb".data))
      ≠ trimSpace ("a\nb".data) := by decide

/-- C1 (amended): for every document D whose summary is reported missing
and every single-line summary text S whose trimmed text is non-empty and
does not start with `#` or `<!--`, extracting after injecting returns
exactly `trim(S)`. -/
theorem c1_extract_inject_roundtrip (content S : GoStr)
    (hnl : '\n' ∉ S)
    (hne : trimSpace S ≠ [])
    (hhash : hasPrefix (trimSpace S) hashStr = false)
    (hcomm : hasPrefix (trimSpace S) commentStr = false)
    (hmiss : isSummaryMissing content = true) :
    extractSummaryContent (injectSummary content S) = trimSpace S := by
  rw [extractSummaryContent, splitLines_injectSummary content S hnl,
    List.drop_succ_cons, List.drop_zero]
  by_cases hc : docHasComment content = true
  · have hcc := hc
    rw [docHasComment] at hcc
    simp only [Bool.and_eq_true, decide_eq_true_eq] at hcc
    rw [if_pos hc, List.singleton_append,
      extractLoop_step_comment _ _ _ hcc.2,
      extractLoop_capture_then_empty _ _ (trimSpace_idem S) hne hhash hcomm]
    simp [joinSpace, joinWith, joinRest]
  · rw [if_neg hc, List.nil_append,
      extractLoop_capture_then_empty _ _ (trimSpace_idem S) hne hhash hcomm]
    simp [joinSpace, joinWith, joinRest]

theorem c1_extract_inject_roundtrip_witness :
    extractSummaryContent
        (injectSummary ("# Title\n\n# LOG\n".data) ("My summary.".data))
      = trimSpace ("My summary.".data) :=
  c1_extract_inject_roundtrip _ _ (by decide) (by decide) (by decide) (by decide)
    (by decide)

/-- C2 counterexample: once capture has started, the sub-heading line
`"## Sub"` does not terminate the capture; it is captured into the
returned summary together with the line after it. -/
theorem c2_counterexample :
    extractSummaryContent ("# T\ntext\n## Sub\nmore\n\n# LOG\n".data)
      = "text ## Sub more".data := by decide

/-- C2 (amended): once the extractor has started capturing, an empty line
or a heading for `LOG` or `One-line note` terminates the capture, but any
other heading line (trimmed text starting with `#`) is captured into the
summary and scanning continues. -/
theorem c2_heading_after_capture (line : GoStr) (rest acc : List GoStr) :
    (trimSpace line = [] → extractLoop (line :: rest) true acc = acc) ∧
    (hasPrefix (trimSpace line) logHeadingStr = true ∨
        hasPrefix (trimSpace line) oneLineHeadingStr = true →
      extractLoop (line :: rest) true acc = acc) ∧
    (hasPrefix (trimSpace line) hashStr = true →
      hasPrefix (trimSpace line) logHeadingStr = false →
      hasPrefix (trimSpace line) oneLineHeadingStr = false →
      extractLoop (line :: rest) true acc =
        extractLoop rest true (acc ++ [trimSpace line])) := by
  refine ⟨fun hemp => extractLoop_step_empty rest acc hemp,
    fun h => extractLoop_step_break rest true acc h, fun hh hl ho => ?_⟩
  obtain ⟨hcm, hne⟩ := hash_facts hh
  rw [extractLoop_cons]
  simp [hl, ho, hne, hcm]

theorem c2_heading_after_capture_witness :
    (trimSpace ("  ".data) = [] →
      extractLoop (("  ".data) :: [] ) true [("t".data)] = [("t".data)]) ∧
    (hasPrefix (trimSpace ("# LOG".data)) logHeadingStr = true ∨
        hasPrefix (trimSpace ("# LOG".data)) oneLineHeadingStr = true →
      extractLoop (("# LOG".data) :: []) true [("t".data)] = [("t".data)]) ∧
    (hasPrefix (trimSpace ("## Sub".data)) hashStr = true →
      hasPrefix (trimSpace ("## Sub".data)) logHeadingStr = false →
      hasPrefix (trimSpace ("## Sub".data)) oneLineHeadingStr = false →
      extractLoop (("## Sub".data) :: []) true [("t".data)] =
        extractLoop [] true ([("t".data)] ++ [trimSpace ("## Sub".data)])) :=
  ⟨(c2_heading_after_capture _ _ _).1,
   (c2_heading_after_capture _ _ _).2.1,
   (c2_heading_after_capture _ _ _).2.2⟩

/-- C9: calling the summary injector twice in a row (without the
missing-summary gate) stacks both summaries after the title and optional
comment: the document then contains `trim(S2)` and `trim(S1)` as two
distinct paragraphs, so the injector is not idempotent. -/
theorem c9_injectSummary_twice (content S1 S2 : GoStr)
    (h1 : '\n' ∉ S1) (h2 : '\n' ∉ S2)
    (hne1 : trimSpace S1 ≠ [])
    (hcomm1 : hasPrefix (trimSpace S1) commentStr = false) :
    splitLines (injectSummary (injectSummary content S1) S2) =
      docTitle content ::
        ((if docHasComment content then [(splitLines content).getD 1 []] else [])
          ++ trimSpace S2 :: [] :: trimSpace S1 :: [] ::
            (if docRestAfterLead content = [] then [[]]
             else docRestAfterLead content)) := by
  have hts1 : trimSpace (trimSpace S1) = trimSpace S1 := trimSpace_idem S1
  have K := splitLines_injectSummary content S1 h1
  have K2 := splitLines_injectSummary (injectSummary content S1) S2 h2
  by_cases hc : docHasComment content = true
  · have hcc := hc
    rw [docHasComment] at hcc
    simp only [Bool.and_eq_true, decide_eq_true_eq] at hcc
    rw [if_pos hc] at K
    rw [List.singleton_append] at K
    have hT : docTitle (injectSummary content S1) = docTitle content := by
      rw [docTitle, K]
      simp
    have hHC : docHasComment (injectSummary content S1) = true := by
      rw [docHasComment, K]
      simp only [Bool.and_eq_true, decide_eq_true_eq, List.getD_cons_succ,
        List.getD_cons_zero, List.length_cons]
      exact ⟨by omega, hcc.2⟩
    have hG1 : (splitLines (injectSummary content S1)).getD 1 [] =
        (splitLines content).getD 1 [] := by
      rw [K]
      simp
    have hRest : docRestAfterLead (injectSummary content S1) =
        trimSpace S1 :: ([] : GoStr) ::
          (if docRestAfterLead content = [] then [[]]
           else docRestAfterLead content) := by
      rw [docRestAfterLead, K, hHC]
      simp only [eq_self_iff_true, if_true, List.drop_succ_cons, List.drop_zero]
      rw [List.dropWhile_cons, if_neg (by simp [hts1, hne1])]
    rw [K2, hT, hHC, hG1, hRest, if_pos hc]
    simp
  · rw [if_neg hc] at K
    rw [List.nil_append] at K
    have hT : docTitle (injectSummary content S1) = docTitle content := by
      rw [docTitle, K]
      simp
    have hHC : docHasComment (injectSummary content S1) = false := by
      rw [docHasComment, K]
      simp [hts1, hcomm1]
    have hRest : docRestAfterLead (injectSummary content S1) =
        trimSpace S1 :: ([] : GoStr) ::
          (if docRestAfterLead content = [] then [[]]
           else docRestAfterLead content) := by
      rw [docRestAfterLead, K, hHC]
      simp only [Bool.false_eq_true, if_false, List.drop_succ_cons, List.drop_zero]
      rw [List.dropWhile_cons, if_neg (by simp [hts1, hne1])]
    rw [K2, hT, hHC, hRest, if_neg hc]
    simp

theorem c9_injectSummary_twice_witness :
    splitLines (injectSummary
        (injectSummary ("# Title\n\n# LOG\n".data) ("first".data)) ("second".data)) =
      docTitle ("# Title\n\n# LOG\n".data) ::
        ((if docHasComment ("# Title\n\n# LOG\n".data)
            then [(splitLines ("# Title\n\n# LOG\n".data)).getD 1 []] else [])
          ++ trimSpace ("second".data) :: [] :: trimSpace ("first".data) :: [] ::
            (if docRestAfterLead ("# Title\n\n# LOG\n".data) = [] then [[]]
             else docRestAfterLead ("# Title\n\n# LOG\n".data))) :=
  c9_injectSummary_twice _ _ _ (by decide) (by decide) (by decide) (by decide)

/-- The heading search loop of `journal.AppendToLog` (lines 97-102):
index of the first line with prefix `"# LOG"` (untrimmed), `none` when
absent (`logChapterIndex == -1`). -/
def findLogIdx : List GoStr → Option Nat
  | [] => none
  | l :: ls =>
    if hasPrefix l logHeadingStr then some 0
    else (findLogIdx ls).map (· + 1)

/-- Length of the initial run satisfying `p`; models the index-advancing
`for` loops of `journal.AppendToLog` (lines 110-116). -/
def countWhile (p : GoStr → Bool) : List GoStr → Nat
  | [] => 0
  | l :: ls => if p l then countWhile p ls + 1 else 0

/-- Insertion part of `journal.AppendToLog` (lines 108-139), after the
heading was found at `logIdx`: skip the empty lines after the heading,
skip the run of existing non-empty entry lines, insert the entry there,
rejoin with newlines and ensure a trailing newline. -/
def appendToLogAt (lines : List GoStr) (logIdx : Nat) (entryLine : GoStr) : GoStr :=
  let after := lines.drop (logIdx + 1)
  let nEmpty := countWhile (fun l => (trimSpace l).isEmpty) after
  let nEntry := countWhile (fun l => !(trimSpace l).isEmpty) (after.drop nEmpty)
  let insertIndex := logIdx + 1 + nEmpty + nEntry
  let newLines := lines.take insertIndex ++ entryLine :: lines.drop insertIndex
  let modified := joinLines newLines
  if hasSuffix modified ['\n'] then modified else modified ++ ['\n']

/-- `journal.AppendToLog` (lines 88-148) on the file content.  The
rendered entry line (`template.Render(cfg.LogEntryTemplate, ...)`) is
taken as a parameter since the template engine is an external
collaborator.  Returns `none` for the "LOG chapter not found" error
(reached before any write), otherwise the new file content. -/
def appendToLog (content entryLine : GoStr) : Option GoStr :=
  match findLogIdx (splitLines content) with
  | none => none
  | some logIdx => some (appendToLogAt (splitLines content) logIdx entryLine)

/-- `journal.AppendToLog` seen as a file operation: on error the file
content is unchanged (the error return precedes `os.WriteFile`). -/
def appendToLogFile (content entryLine : GoStr) : GoStr × Bool :=
  match appendToLog content entryLine with
  | none => (content, false)
  | some c => (c, true)

/-- Sequential appends of several rendered entry lines. -/
def appendMany (content : GoStr) : List GoStr → Option GoStr
  | [] => some content
  | e :: es =>
    match appendToLog content e with
    | none => none
    | some c => appendMany c es

theorem findLogIdx_none_iff (ls : List GoStr) :
    findLogIdx ls = none ↔ ∀ l ∈ ls, hasPrefix l logHeadingStr = false := by
  induction ls with
  | nil => simp [findLogIdx]
  | cons l ls ih =>
    rw [findLogIdx]
    by_cases h : hasPrefix l logHeadingStr = true
    · simp [h]
    · have hb : hasPrefix l logHeadingStr = false := by
        cases hp : hasPrefix l logHeadingStr
        · rfl
        · exact absurd hp h
      rw [if_neg h]
      constructor
      · intro hmap
        have hnone : findLogIdx ls = none := by
          cases hfi : findLogIdx ls
          · rfl
          · rw [hfi] at hmap
            simp at hmap
        intro x hx
        rcases List.mem_cons.mp hx with rfl | hx'
        · exact hb
        · exact ih.mp hnone x hx'
      · intro hall
        rw [ih.mpr fun x hx => hall x (List.mem_cons_of_mem l hx)]
        rfl

theorem findLogIdx_append (A : List GoStr) (h : GoStr) (rest : List GoStr)
    (hA : ∀ l ∈ A, hasPrefix l logHeadingStr = false)
    (hh : hasPrefix h logHeadingStr = true) :
    findLogIdx (A ++ h :: rest) = some A.length := by
  induction A with
  | nil => simp [findLogIdx, hh]
  | cons a A' ih =>
    rw [List.cons_append, findLogIdx,
      if_neg (by simp [hA a (List.mem_cons_self a A')]),
      ih (fun l hl => hA l (List.mem_cons_of_mem a hl))]
    simp

theorem countWhile_append_all {p : GoStr → Bool} {xs : List GoStr} (ys : List GoStr)
    (hxs : ∀ x ∈ xs, p x = true) :
    countWhile p (xs ++ ys) = xs.length + countWhile p ys := by
  induction xs with
  | nil => simp
  | cons x xs' ih =>
    rw [List.cons_append, countWhile, if_pos (hxs x (List.mem_cons_self x xs')),
      ih (fun a ha => hxs a (List.mem_cons_of_mem x ha))]
    simp
    omega

theorem countWhile_eq_zero {p : GoStr → Bool} {ls : List GoStr}
    (h : ls = [] ∨ ∃ y ys, ls = y :: ys ∧ p y = false) :
    countWhile p ls = 0 := by
  rcases h with rfl | ⟨y, ys, rfl, hy⟩
  · rfl
  · rw [countWhile, if_neg (by simp [hy])]

theorem hasSuffix_append_nl (s : GoStr) : hasSuffix (s ++ ['\n']) ['\n'] = true := by
  rw [hasSuffix, hasPrefix]
  simp [List.isPrefixOf]

theorem hasSuffix_nl_of_last_ne {s t : GoStr} (hne : s ≠ []) (hnl : '\n' ∉ s) :
    hasSuffix (t ++ s) ['\n'] = false := by
  rw [hasSuffix, hasPrefix, List.reverse_append]
  cases hrev : s.reverse with
  | nil => exact absurd (by simpa using hrev) hne
  | cons c cs =>
    have hc : c ∈ s := by
      rw [← List.mem_reverse, hrev]
      exact List.mem_cons_self c cs
    have : ('\n' == c) = false := by
      simp only [beq_eq_false_iff_ne, ne_eq]
      intro hcon
      exact hnl (hcon ▸ hc)
    simp [List.isPrefixOf, this]

theorem exists_append_of_getLast? {l : List GoStr} {a : GoStr}
    (h : l.getLast? = some a) : ∃ l', l = l' ++ [a] := by
  induction l with
  | nil => simp at h
  | cons b l' ih =>
    cases l' with
    | nil =>
      simp at h
      exact ⟨[], by simp [h]⟩
    | cons c l'' =>
      rw [List.getLast?_cons_cons] at h
      obtain ⟨l₀, hl₀⟩ := ih h
      exact ⟨b :: l₀, by rw [List.cons_append, ← hl₀]⟩

theorem appendToLog_eq_none_of_none {content entryLine : GoStr}
    (h : findLogIdx (splitLines content) = none) :
    appendToLog content entryLine = none := by
  rw [appendToLog, h]

theorem appendToLog_eq_some_of_some {content entryLine : GoStr} {k : Nat}
    (h : findLogIdx (splitLines content) = some k) :
    appendToLog content entryLine = some (appendToLogAt (splitLines content) k entryLine) := by
  rw [appendToLog, h]

/-- C5: appending to a document with no `"# LOG"`-prefixed line fails and
leaves the file content unchanged; when such a heading exists the
operation succeeds. -/
theorem c5_appendToLog_sectionNotFound (content entryLine : GoStr) :
    ((∃ l ∈ splitLines content, hasPrefix l logHeadingStr = true) ↔
      (appendToLogFile content entryLine).2 = true) ∧
    ((appendToLogFile content entryLine).2 = false →
      (appendToLogFile content entryLine).1 = content) := by
  cases hfind : findLogIdx (splitLines content) with
  | none =>
    have hall := (findLogIdx_none_iff (splitLines content)).mp hfind
    have hfile : appendToLogFile content entryLine = (content, false) := by
      rw [appendToLogFile, appendToLog_eq_none_of_none hfind]
    rw [hfile]
    constructor
    · constructor
      · rintro ⟨l, hl, hpre⟩
        rw [hall l hl] at hpre
        simp at hpre
      · intro hcon
        simp at hcon
    · intro
      rfl
  | some logIdx =>
    have hfile : appendToLogFile content entryLine =
        (appendToLogAt (splitLines content) logIdx entryLine, true) := by
      rw [appendToLogFile, appendToLog_eq_some_of_some hfind]
    rw [hfile]
    constructor
    · constructor
      · intro
        rfl
      · intro
        by_contra hnone
        push_neg at hnone
        have : findLogIdx (splitLines content) = none :=
          (findLogIdx_none_iff (splitLines content)).mpr fun l hl => by
            have hcon := hnone l hl
            cases hp : hasPrefix l logHeadingStr
            · rfl
            · exact absurd hp hcon
        rw [this] at hfind
        cases hfind
    · intro hcon
      simp at hcon

theorem c5_appendToLog_sectionNotFound_witness :
    (appendToLogFile ("Just some content\n".data) ("e".data)).1
        = "Just some content\n".data ∧
    (appendToLogFile ("# LOG\n\n".data) ("e".data)).2 = true :=
  ⟨(c5_appendToLog_sectionNotFound _ _).2 (by decide),
   (c5_appendToLog_sectionNotFound _ _).1.mp ⟨"# LOG".data, by decide, by decide⟩⟩

/-- C7 counterexample: a document with blank lines after its existing LOG
entries keeps them, so the appended result ends with more than one
trailing newline. -/
theorem c7_counterexample :
    appendToLog ("# LOG\nx\n\n\n".data) ("new entry".data)
      = some ("# LOG\nx\nnew entry\n\n\n".data) ∧
    hasSuffix ("# LOG\nx\nnew entry\n\n\n".data) ("\n\n".data) = true := by decide

/-- C7 (amended): the content produced by a successful append always ends
with at least one trailing newline; blank lines already present after the
insertion point are preserved, so more than one trailing newline can
remain. -/
theorem c7_trailing_newline (content entryLine c' : GoStr)
    (h : appendToLog content entryLine = some c') :
    hasSuffix c' ['\n'] = true := by
  cases hfind : findLogIdx (splitLines content) with
  | none =>
    rw [appendToLog_eq_none_of_none hfind] at h
    cases h
  | some logIdx =>
    rw [appendToLog_eq_some_of_some hfind] at h
    simp only [Option.some.injEq] at h
    subst h
    rw [appendToLogAt]
    split
    · assumption
    · exact hasSuffix_append_nl _

theorem c7_trailing_newline_witness :
    hasSuffix ("# LOG\n\nentry\n".data) ['\n'] = true :=
  c7_trailing_newline ("# LOG\n".data) ("entry".data) _ (by decide)

theorem isEmpty_trim_of_ne {l : GoStr} (h : trimSpace l ≠ []) :
    (trimSpace l).isEmpty = false := by
  cases ht : trimSpace l with
  | nil => exact absurd ht h
  | cons c cs => rfl

/-- One append step on a decomposed document: `A` has no LOG heading,
`hline` is the heading, `E` the empty lines directly below it, `N` the
existing entry lines, `R` the remainder (empty, or starting with a blank
line and ending with an empty last line).  The entry lands between `N`
and `R`; when `R` is empty the trailing-newline fix appends one empty
line. -/
theorem appendToLog_step (content e : GoStr) (A : List GoStr) (hline : GoStr)
    (E N R : List GoStr)
    (hsplit : splitLines content = A ++ hline :: (E ++ N ++ R))
    (hA : ∀ l ∈ A, hasPrefix l logHeadingStr = false)
    (hh : hasPrefix hline logHeadingStr = true)
    (hE : ∀ l ∈ E, trimSpace l = [])
    (hN : ∀ l ∈ N, trimSpace l ≠ [])
    (hNR : N = [] → R = [])
    (hR : R = [] ∨ (trimSpace (R.headD []) = [] ∧ R.getLast? = some []))
    (he_nl : '\n' ∉ e) (he_ne : trimSpace e ≠ []) :
    ∃ c₁, appendToLog content e = some c₁ ∧
      splitLines c₁ =
        A ++ hline :: (E ++ (N ++ [e]) ++ (if R = [] then [[]] else R)) := by
  have he_ne' : e ≠ [] := fun h => he_ne (by rw [h]; rfl)
  have hnoNL : ∀ l ∈ A ++ hline :: (E ++ N ++ R), '\n' ∉ l := by
    rw [← hsplit]
    exact fun l h => splitLines_noNL h
  have hfind : findLogIdx (splitLines content) = some A.length := by
    rw [hsplit]
    exact findLogIdx_append A hline _ hA hh
  have hafter : (splitLines content).drop (A.length + 1) = E ++ N ++ R := by
    rw [hsplit, show A ++ hline :: (E ++ N ++ R) = (A ++ [hline]) ++ (E ++ N ++ R) by simp,
      show A.length + 1 = (A ++ [hline]).length by simp, List.drop_left]
  have hnEmpty : countWhile (fun l => (trimSpace l).isEmpty) (E ++ N ++ R) = E.length := by
    rw [List.append_assoc, countWhile_append_all (N ++ R) (fun x hx => by rw [hE x hx]; rfl)]
    have hz : countWhile (fun l => (trimSpace l).isEmpty) (N ++ R) = 0 := by
      cases hNcase : N with
      | nil =>
        rw [hNR hNcase]
        rfl
      | cons n N' =>
        apply countWhile_eq_zero
        right
        exact ⟨n, N' ++ R, by simp,
          isEmpty_trim_of_ne (hN n (by rw [hNcase]; exact List.mem_cons_self n N'))⟩
    omega
  have hdropE : (E ++ N ++ R).drop E.length = N ++ R := by
    rw [List.append_assoc, List.drop_left]
  have hnEntry : countWhile (fun l => !(trimSpace l).isEmpty) (N ++ R) = N.length := by
    rw [countWhile_append_all R (fun x hx => by rw [isEmpty_trim_of_ne (hN x hx)]; rfl)]
    have hz : countWhile (fun l => !(trimSpace l).isEmpty) R = 0 := by
      cases hRcase : R with
      | nil => rfl
      | cons r R' =>
        apply countWhile_eq_zero
        right
        refine ⟨r, R', rfl, ?_⟩
        have hhead := (hR.resolve_left (by rw [hRcase]; simp)).1
        rw [hRcase] at hhead
        simp only [List.headD_cons] at hhead
        rw [hhead]
        rfl
    omega
  have hform : splitLines content = (A ++ hline :: (E ++ N)) ++ R := by
    rw [hsplit]
    simp
  have hlen : A.length + 1 + E.length + N.length = (A ++ hline :: (E ++ N)).length := by
    simp
    omega
  have htake : (splitLines content).take (A.length + 1 + E.length + N.length)
      = A ++ hline :: (E ++ N) := by
    rw [hform, hlen, List.take_left]
  have hdropI : (splitLines content).drop (A.length + 1 + E.length + N.length) = R := by
    rw [hform, hlen, List.drop_left]
  have hval : appendToLog content e =
      some (if hasSuffix (joinLines ((A ++ hline :: (E ++ N)) ++ e :: R)) ['\n']
            then joinLines ((A ++ hline :: (E ++ N)) ++ e :: R)
            else joinLines ((A ++ hline :: (E ++ N)) ++ e :: R) ++ ['\n']) := by
    rw [appendToLog_eq_some_of_some hfind]
    unfold appendToLogAt
    simp only [hafter, hnEmpty, hdropE, hnEntry, htake, hdropI]
  have hnew_noNL : ∀ l ∈ (A ++ hline :: (E ++ N)) ++ e :: R, '\n' ∉ l := by
    intro l hl'
    have hcases : l ∈ A ++ hline :: (E ++ N ++ R) ∨ l = e := by
      simp only [List.mem_append, List.mem_cons] at hl' ⊢
      tauto
    rcases hcases with h | rfl
    · exact hnoNL l h
    · exact he_nl
  by_cases hRe : R = []
  · subst hRe
    have hM : joinLines ((A ++ hline :: (E ++ N)) ++ e :: []) =
        joinLines (A ++ hline :: (E ++ N)) ++ '\n' :: e :=
      joinLines_append_single _ e (by simp)
    have hsuf : hasSuffix (joinLines ((A ++ hline :: (E ++ N)) ++ e :: [])) ['\n'] = false := by
      rw [hM, show joinLines (A ++ hline :: (E ++ N)) ++ '\n' :: e
          = (joinLines (A ++ hline :: (E ++ N)) ++ ['\n']) ++ e by simp]
      exact hasSuffix_nl_of_last_ne he_ne' he_nl
    refine ⟨joinLines ((A ++ hline :: (E ++ N)) ++ e :: []) ++ ['\n'], ?_, ?_⟩
    · rw [hval, hsuf]
      simp
    · rw [show joinLines ((A ++ hline :: (E ++ N)) ++ e :: []) ++ ['\n']
          = joinLines ((A ++ hline :: (E ++ N)) ++ e :: []) ++ '\n' :: [] from rfl,
        splitLines_append_cons,
        splitLines_joinLines (by simp) hnew_noNL]
      simp [splitLines]
  · have hRr := hR.resolve_left hRe
    obtain ⟨R₀, hR₀⟩ := exists_append_of_getLast? hRr.2
    have hsuf : hasSuffix (joinLines ((A ++ hline :: (E ++ N)) ++ e :: R)) ['\n'] = true := by
      rw [show (A ++ hline :: (E ++ N)) ++ e :: R
          = ((A ++ hline :: (E ++ N)) ++ e :: R₀) ++ [[]] by rw [hR₀]; simp,
        joinLines_append_single _ _ (by simp)]
      exact hasSuffix_append_nl _
    refine ⟨joinLines ((A ++ hline :: (E ++ N)) ++ e :: R), ?_, ?_⟩
    · rw [hval, hsuf]
      simp
    · rw [splitLines_joinLines (by simp) hnew_noNL, if_neg hRe]
      simp

/-- C6: appending entries `es` one at a time to a document whose LOG
region decomposes as heading, empty lines `E`, existing entries `N` and
remainder `R` yields the entries as consecutive lines, in arrival order,
directly below the heading's empty lines and the existing entries, with
no blank lines between them and no reordering. -/
theorem c6_appendMany_insertion_order (es : List GoStr) (content : GoStr)
    (A : List GoStr) (hline : GoStr) (E N R : List GoStr)
    (hsplit : splitLines content = A ++ hline :: (E ++ N ++ R))
    (hA : ∀ l ∈ A, hasPrefix l logHeadingStr = false)
    (hh : hasPrefix hline logHeadingStr = true)
    (hE : ∀ l ∈ E, trimSpace l = [])
    (hN : ∀ l ∈ N, trimSpace l ≠ [])
    (hNR : N = [] → R = [])
    (hR : R = [] ∨ (trimSpace (R.headD []) = [] ∧ R.getLast? = some []))
    (hes : ∀ e ∈ es, '\n' ∉ e ∧ trimSpace e ≠ []) :
    ∃ c', appendMany content es = some c' ∧
      splitLines c' = A ++ hline ::
        (E ++ N ++ es ++ (if es = [] then R else if R = [] then [[]] else R)) := by
  induction es generalizing content N R with
  | nil =>
    refine ⟨content, rfl, ?_⟩
    rw [hsplit, if_pos rfl]
    simp
  | cons e es' ih =>
    obtain ⟨he_nl, he_ne⟩ := hes e (List.mem_cons_self e es')
    obtain ⟨c₁, hc₁, hsplit₁⟩ :=
      appendToLog_step content e A hline E N R hsplit hA hh hE hN hNR hR he_nl he_ne
    have hes' : ∀ x ∈ es', '\n' ∉ x ∧ trimSpace x ≠ [] := fun x hx =>
      hes x (List.mem_cons_of_mem e hx)
    have hN' : ∀ l ∈ N ++ [e], trimSpace l ≠ [] := by
      intro l hl'
      rcases List.mem_append.mp hl' with h | h
      · exact hN l h
      · rw [List.mem_singleton.mp h]
        exact he_ne
    have hNR' : N ++ [e] = [] → (if R = [] then [[]] else R) = [] := by
      intro hcon
      simp at hcon
    have hR' : (if R = [] then [[]] else R) = [] ∨
        (trimSpace ((if R = [] then [[]] else R).headD []) = [] ∧
          (if R = [] then [[]] else R).getLast? = some []) := by
      by_cases hRe : R = []
      · rw [if_pos hRe]
        exact Or.inr ⟨rfl, rfl⟩
      · rw [if_neg hRe]
        exact Or.inr (hR.resolve_left hRe)
    obtain ⟨c', hc', hsplit'⟩ := ih c₁ (N ++ [e]) (if R = [] then [[]] else R)
      hsplit₁ hN' hNR' hR' hes'
    refine ⟨c', ?_, ?_⟩
    · rw [appendMany, hc₁]
      exact hc'
    · rw [hsplit']
      have hRne' : (if R = [] then [[]] else R) ≠ [] := by
        by_cases hRe : R = []
        · rw [if_pos hRe]
          simp
        · rw [if_neg hRe]
          exact hRe
      rw [if_neg (show ¬(e :: es' = []) by simp)]
      by_cases hes'' : es' = []
      · rw [if_pos hes'']
        simp
      · rw [if_neg hes'', if_neg hRne']
        simp

theorem c6_appendMany_insertion_order_witness :
    ∃ c', appendMany ("# LOG\n\n".data) ["10:00 first".data, "10:05 second".data]
        = some c' ∧
      splitLines c' = [] ++ "# LOG".data ::
        ([[], []] ++ [] ++ ["10:00 first".data, "10:05 second".data] ++
          (if (["10:00 first".data, "10:05 second".data] : List GoStr) = []
           then ([] : List GoStr)
           else if ([] : List GoStr) = [] then [[]] else [])) :=
  c6_appendMany_insertion_order _ _ [] ("# LOG".data) [[], []] [] []
    (by decide) (by decide) (by decide) (by decide) (by decide) (by decide)
    (by decide) (by decide)

/-- Outcome of the external AI summarizer call
(`summarizer.GenerateSummary`): a summary string or an error. -/
inductive AIResult : Type
  | ok (s : GoStr) : AIResult
  | fail : AIResult

/-- `journal.GenerateSummaryIfMissing` (lines 152-253) as a file
operation on the content.  `ai = some r` models a configured summarizer
whose call returns `r`; `ai = none` models the manual path, with
`readerLine` the line read from the input (`none` = scanner failure).
The result pairs the file content after the operation with the success
flag; every error return in the source precedes `os.WriteFile`, so the
content is unchanged on those paths. -/
def generateSummaryIfMissing (content : GoStr) (ai : Option AIResult)
    (readerLine : Option GoStr) : GoStr × Bool :=
  if !isSummaryMissing content then (content, true)
  else
    match ai with
    | some AIResult.fail => (content, false)
    | some (AIResult.ok s) => (injectSummary content s, true)
    | none =>
      match readerLine with
      | none => (content, false)
      | some line =>
        if (trimSpace line).isEmpty then (content, true)
        else (injectSummary content line, true)

/-- C10: when the summary is missing and the AI summarizer fails, the
operation reports the error and the file content is unchanged; moreover
on every error path (AI failure or manual-read failure) the content is
unchanged — the file is only rewritten after a summary was successfully
obtained. -/
theorem c10_ai_error_no_write (content : GoStr) (reader : Option GoStr)
    (hmiss : isSummaryMissing content = true) :
    generateSummaryIfMissing content (some AIResult.fail) reader
      = (content, false) ∧
    (∀ ai readerLine,
      (generateSummaryIfMissing content ai readerLine).2 = false →
      (generateSummaryIfMissing content ai readerLine).1 = content) := by
  constructor
  · unfold generateSummaryIfMissing
    rw [hmiss]
    rfl
  · intro ai readerLine
    unfold generateSummaryIfMissing
    by_cases hm : isSummaryMissing content
    · rw [hm]
      cases ai with
      | some r =>
        cases r with
        | ok s =>
          intro hcon
          simp at hcon
        | fail =>
          intro
          rfl
      | none =>
        cases readerLine with
        | none =>
          intro
          rfl
        | some line =>
          by_cases hl : (trimSpace line).isEmpty
          · simp only [hl]
            intro hcon
            simp at hcon
          · simp only [isEmpty_trim_of_ne (by simpa using hl)]
            intro hcon
            simp at hcon
    · simp only [Bool.not_eq_true] at hm
      rw [hm]
      intro hcon
      simp at hcon

theorem c10_ai_error_no_write_witness :
    generateSummaryIfMissing ("# Daily Log\n\n## LOG\n".data)
        (some AIResult.fail) (some [])
      = ("# Daily Log\n\n## LOG\n".data, false) :=
  (c10_ai_error_no_write ("# Daily Log\n\n## LOG\n".data) (some []) (by decide)).1

/-- Go `time.isLeap`. -/
def isLeap (y : Nat) : Bool :=
  (y % 4 == 0 && y % 100 != 0) || y % 400 == 0

/-- Length of a year in days. -/
def yearLen (y : Nat) : Nat := if isLeap y then 366 else 365

/-- Days from January 1 of year 1 (Go's absolute epoch) to January 1 of
year `y` (Go `daysSinceEpoch`). -/
def daysBeforeYear (y : Nat) : Nat :=
  365 * (y - 1) + (y - 1) / 4 - (y - 1) / 100 + (y - 1) / 400

/-- Go's `daysBefore` table: days before month `m` (1..12) in a non-leap
year. -/
def daysBeforeMonthTab : Nat → Nat
  | 1 => 0
  | 2 => 31
  | 3 => 59
  | 4 => 90
  | 5 => 120
  | 6 => 151
  | 7 => 181
  | 8 => 212
  | 9 => 243
  | 10 => 273
  | 11 => 304
  | 12 => 334
  | _ => 365

/-- Days before month `m`, with Go's leap-day adjustment
(`if isLeap(year) && month >= March { d++ }`). -/
def daysBeforeMonth (leap : Bool) (m : Nat) : Nat :=
  daysBeforeMonthTab m + if leap && decide (3 ≤ m) then 1 else 0

/-- Go `time.Date(y, m, d, 0,0,0,0, UTC)` reduced to whole days since
January 1 of year 1.  The month is normalized as in Go's `norm` (all
uses here have `m ≥ 1`); the day is added as a raw offset (`day - 1`),
so `day = 0` denotes the last day of the previous month, as produced by
`AddDate(0, 1, -1)` on the first of a month. -/
def dateDays (year month day : Nat) : Nat :=
  let y := year + (month - 1) / 12
  let m := (month - 1) % 12 + 1
  daysBeforeYear y + daysBeforeMonth (isLeap y) m + day - 1

/-- Days in a calendar month. -/
def daysInMonth (y m : Nat) : Nat :=
  if m = 2 then (if isLeap y then 29 else 28)
  else if m = 4 ∨ m = 6 ∨ m = 9 ∨ m = 11 then 30
  else 31

/-- Go `Time.Weekday` on a day count: 0 = Sunday .. 6 = Saturday.
January 1 of year 1 (day 0) is a Monday, per Go's `absWeekday`. -/
def goWeekday (t : Nat) : Nat := (t + 1) % 7

/-- Go `absDate`: year and 0-based day-of-year from a day count,
using the 400/100/4/1-year cycle subdivision of the Go source. -/
def absDate (d : Nat) : Nat × Nat :=
  let n400 := d / 146097
  let y0 := 400 * n400
  let d1 := d % 146097
  let n100 := d1 / 36524
  let n100' := n100 - n100 / 4
  let y1 := y0 + 100 * n100'
  let d2 := d1 - 36524 * n100'
  let n4 := d2 / 1461
  let y2 := y1 + 4 * n4
  let d3 := d2 % 1461
  let n1 := d3 / 365
  let n1' := n1 - n1 / 4
  let y3 := y2 + n1'
  let d4 := d3 - 365 * n1'
  (y3 + 1, d4)

/-- Go `Time.ISOWeek`: move to the Thursday of the current Monday-based
week (day 0 being a Monday, `t % 7` is the Monday-based weekday index,
matching Go's `Thursday - absWeekday` offset with the Sunday special
case), then take that day's year and `yday/7 + 1`. -/
def isoWeek (t : Nat) : Nat × Nat :=
  let thu := t - t % 7 + 3
  ((absDate thu).1, (absDate thu).2 / 7 + 1)

/-- First `for` loop of `review.ReviewWeek` (lines 32-35): advance by
whole weeks while the probe's ISO week is before the target. -/
def reviewWeekLoop1 (year week : Nat) : Nat → Nat → Nat
  | 0, t => t
  | fuel + 1, t =>
    let iw := isoWeek t
    if iw.1 < year ∨ (iw.1 = year ∧ iw.2 < week) then
      reviewWeekLoop1 year week fuel (t + 7)
    else t

/-- Second `for` loop of `review.ReviewWeek` (lines 36-39): step back by
whole weeks while the probe's ISO week is after the target. -/
def reviewWeekLoop2 (year week : Nat) : Nat → Nat → Nat
  | 0, t => t
  | fuel + 1, t =>
    let iw := isoWeek t
    if year < iw.1 ∨ (iw.1 = year ∧ week < iw.2) then
      reviewWeekLoop2 year week fuel (t - 7)
    else t

/-- Monday-seeking loop of `review.ReviewWeek` (lines 44-46). -/
def mondaySeek : Nat → Nat → Nat
  | 0, t => t
  | fuel + 1, t => if goWeekday t ≠ 1 then mondaySeek fuel (t - 1) else t

/-- The date-range computation of `review.ReviewWeek` (lines 28-47): the
probe starts at January 4 (always in ISO week 1), the two loops move it
into the requested ISO week, then the week's Monday and the Monday + 6
Sunday are returned.  The Go `for` loops always terminate within 60 and
7 iterations respectively, which is the fuel used here. -/
def reviewWeekRange (week year : Nat) : Nat × Nat :=
  let d0 := dateDays year 1 4
  let d1 := reviewWeekLoop1 year week 60 d0
  let d2 := reviewWeekLoop2 year week 60 d1
  let start := mondaySeek 7 d2
  (start, start + 6)

/-- Number of ISO weeks in year `y`, read off as the ISO week number of
December 28, which always lies in the year's last ISO week. -/
def isoWeeksIn (y : Nat) : Nat := (isoWeek (dateDays y 12 28)).2

/-- The month-name lookup of `review.ReviewMonth` (lines 109-114): the
Go map literal from full English month names; a missing key yields the
zero `time.Month`, reported as the `invalid month name` error. -/
def monthNum (m : String) : Nat :=
  if m = "January" then 1
  else if m = "February" then 2
  else if m = "March" then 3
  else if m = "April" then 4
  else if m = "May" then 5
  else if m = "June" then 6
  else if m = "July" then 7
  else if m = "August" then 8
  else if m = "September" then 9
  else if m = "October" then 10
  else if m = "November" then 11
  else if m = "December" then 12
  else 0

/-- The twelve recognized month names. -/
def monthNames : List String :=
  ["January", "February", "March", "April", "May", "June", "July",
   "August", "September", "October", "November", "December"]

/-- Date-range computation of `review.ReviewMonth` (lines 108-120):
`none` models the `invalid month name` error; otherwise the range is
`Date(year, m, 1)` through `Date(year, m, 1).AddDate(0, 1, -1)`, the
latter being the normalized `Date(year, m+1, 0)`. -/
def reviewMonthRange (month : String) (year : Nat) : Option (Nat × Nat) :=
  let m := monthNum month
  if m = 0 then none
  else some (dateDays year m 1, dateDays year (m + 1) 0)

set_option maxHeartbeats 1000000 in
/-- Correctness of Go's `absDate` on in-year day offsets. -/
theorem absDate_daysBeforeYear (y j : Nat) (hy : 1 ≤ y) (hj : j < yearLen y) :
    absDate (daysBeforeYear y + j) = (y, j) := by
  obtain ⟨a, b, c, e, hn, hb, hc, he⟩ :
      ∃ a b c e, y - 1 = 400 * a + 100 * b + 4 * c + e ∧ b ≤ 3 ∧ c ≤ 24 ∧ e ≤ 3 :=
    ⟨(y - 1) / 400, (y - 1) % 400 / 100, (y - 1) % 400 % 100 / 4, (y - 1) % 400 % 100 % 4,
      by omega, by omega, by omega, by omega⟩
  have hdby : daysBeforeYear y = 146097 * a + 36524 * b + 1461 * c + 365 * e := by
    unfold daysBeforeYear
    omega
  have hj' : (e = 3 ∧ (c ≠ 24 ∨ b = 3) ∧ j < 366) ∨
      (¬ (e = 3 ∧ (c ≠ 24 ∨ b = 3)) ∧ j < 365) := by
    unfold yearLen isLeap at hj
    split at hj <;> rename_i h <;>
      simp only [Bool.or_eq_true, Bool.and_eq_true, beq_iff_eq, bne_iff_ne, ne_eq,
        decide_eq_true_eq] at h <;> omega
  have hy' : y = 400 * a + 100 * b + 4 * c + e + 1 := by omega
  unfold absDate
  simp only [Prod.mk.injEq]
  set x := 36524 * b + 1461 * c + 365 * e + j with hx
  have hdby' : daysBeforeYear y + j = 146097 * a + x := by omega
  rw [hdby']
  clear hdby hdby' hj hn hy
  have hj365 : j ≤ 365 := by rcases hj' with ⟨h1', h2', h3'⟩ | ⟨h1', h2'⟩ <;> omega
  have h1 : (146097 * a + x) / 146097 = a ∧ (146097 * a + x) % 146097 = x := by omega
  have hk : x / 36524 = b ∨ (b = 3 ∧ x / 36524 = 4) := by
    by_cases hlt : 1461 * c + 365 * e + j < 36524
    · left
      omega
    · have hmax : c = 24 ∧ e = 3 ∧ j = 365 := by omega
      have hb3 : b = 3 := by
        rcases hj' with ⟨h1', h2' | h2', h3'⟩ | ⟨h1', h2'⟩ <;> omega
      exact Or.inr ⟨hb3, by omega⟩
  have h2 : x / 36524 - x / 36524 / 4 = b := by
    rcases hk with h | ⟨hb3, h⟩ <;> rw [h] <;> omega
  have h4 : (x - 36524 * b) / 1461 = c ∧ (x - 36524 * b) % 1461 = 365 * e + j := by
    constructor <;> omega
  have hq : (365 * e + j) / 365 = e ∨ (e = 3 ∧ (365 * e + j) / 365 = 4) := by
    by_cases hj5 : j = 365
    · have he3 : e = 3 := by
        rcases hj' with ⟨h1', h2', h3'⟩ | ⟨h1', h2'⟩ <;> omega
      exact Or.inr ⟨he3, by omega⟩
    · left
      omega
  have h5 : (365 * e + j) / 365 - (365 * e + j) / 365 / 4 = e := by
    rcases hq with h | ⟨he3, h⟩ <;> rw [h] <;> omega
  rw [h1.1, h1.2, h2, h4.1, h4.2, h5]
  omega

set_option maxHeartbeats 1000000 in
theorem daysBeforeYear_succ (y : Nat) (hy : 1 ≤ y) :
    daysBeforeYear (y + 1) = daysBeforeYear y + yearLen y := by
  unfold daysBeforeYear yearLen isLeap
  split <;> rename_i h <;>
    simp only [Bool.or_eq_true, Bool.and_eq_true, beq_iff_eq, bne_iff_ne, ne_eq,
      decide_eq_true_eq] at h <;> omega

set_option maxHeartbeats 1000000 in
theorem monthNum_eq_zero_iff (m : String) : monthNum m = 0 ↔ m ∉ monthNames := by
  rw [monthNum, monthNames]
  split_ifs <;> simp_all

set_option maxHeartbeats 1000000 in
theorem monthNum_le_twelve (m : String) : monthNum m ≤ 12 := by
  rw [monthNum]
  split_ifs <;> omega

set_option maxHeartbeats 1000000 in
/-- The `AddDate(0, 1, -1)` end date is the last calendar day of the
month. -/
theorem dateDays_next_month_zero (year m : Nat) (hy : 1 ≤ year)
    (hm : 1 ≤ m) (hm12 : m ≤ 12) :
    dateDays year (m + 1) 0 = dateDays year m (daysInMonth year m) := by
  have hsucc := daysBeforeYear_succ year hy
  by_cases hL : isLeap year = true
  · have hyl : yearLen year = 366 := by rw [yearLen, if_pos hL]
    rw [hyl] at hsucc
    interval_cases m <;>
      simp [dateDays, daysBeforeMonth, daysBeforeMonthTab, daysInMonth, hL] <;>
      omega
  · have hLb : isLeap year = false := by
      cases h : isLeap year
      · rfl
      · exact absurd h hL
    have hyl : yearLen year = 365 := by rw [yearLen, hLb]; rfl
    rw [hyl] at hsucc
    interval_cases m <;>
      simp [dateDays, daysBeforeMonth, daysBeforeMonthTab, daysInMonth, hLb] <;>
      omega

/-- C4: the monthly range computation fails exactly on a name outside
the twelve case-sensitive full English month names; for a valid name it
spans the first through the last calendar day of that month (leap years
included via `daysInMonth`). -/
theorem c4_reviewMonthRange (month : String) (year : Nat) (hy : 1 ≤ year) :
    (reviewMonthRange month year = none ↔ month ∉ monthNames) ∧
    (monthNum month ≠ 0 →
      reviewMonthRange month year
        = some (dateDays year (monthNum month) 1,
            dateDays year (monthNum month) (daysInMonth year (monthNum month)))) := by
  constructor
  · rw [reviewMonthRange]
    by_cases h : monthNum month = 0
    · rw [if_pos h]
      exact ⟨fun _ => (monthNum_eq_zero_iff month).mp h, fun _ => rfl⟩
    · rw [if_neg h]
      constructor
      · intro hcon
        cases hcon
      · intro hnot
        exact absurd ((monthNum_eq_zero_iff month).mpr hnot) h
  · intro hne
    rw [reviewMonthRange, if_neg hne]
    rw [dateDays_next_month_zero year (monthNum month) hy (by omega)
      (monthNum_le_twelve month)]

theorem c4_reviewMonthRange_witness :
    reviewMonthRange "February" 2024 = some (dateDays 2024 2 1, dateDays 2024 2 29) ∧
    reviewMonthRange "February" 2023 = some (dateDays 2023 2 1, dateDays 2023 2 28) ∧
    reviewMonthRange "february" 2024 = none := by
  refine ⟨?_, ?_, ?_⟩
  · have h := (c4_reviewMonthRange "February" 2024 (by norm_num)).2 (by decide)
    rw [show monthNum "February" = 2 from by decide,
      show daysInMonth 2024 2 = 29 from by decide] at h
    exact h
  · have h := (c4_reviewMonthRange "February" 2023 (by norm_num)).2 (by decide)
    rw [show monthNum "February" = 2 from by decide,
      show daysInMonth 2023 2 = 28 from by decide] at h
    exact h
  · exact (c4_reviewMonthRange "february" 2024 (by norm_num)).1.mpr (by decide)

theorem isoWeek_def (t : Nat) :
    isoWeek t = ((absDate (t - t % 7 + 3)).1, (absDate (t - t % 7 + 3)).2 / 7 + 1) := rfl

theorem reviewWeekLoop1_succ (year week fuel t : Nat) :
    reviewWeekLoop1 year week (fuel + 1) t =
      if (isoWeek t).1 < year ∨ ((isoWeek t).1 = year ∧ (isoWeek t).2 < week) then
        reviewWeekLoop1 year week fuel (t + 7)
      else t := rfl

theorem reviewWeekLoop2_succ (year week fuel t : Nat) :
    reviewWeekLoop2 year week (fuel + 1) t =
      if year < (isoWeek t).1 ∨ ((isoWeek t).1 = year ∧ week < (isoWeek t).2) then
        reviewWeekLoop2 year week fuel (t - 7)
      else t := rfl

theorem dateDays_jan4 (y : Nat) : dateDays y 1 4 = daysBeforeYear y + 3 := by
  unfold dateDays daysBeforeMonth daysBeforeMonthTab
  simp

theorem dateDays_dec28 (y : Nat) :
    dateDays y 12 28 = daysBeforeYear y + yearLen y - 4 := by
  unfold dateDays daysBeforeMonth daysBeforeMonthTab yearLen
  by_cases hL : isLeap y = true
  · simp [hL]
  · have hLb : isLeap y = false := by
      cases h : isLeap y
      · rfl
      · exact absurd h hL
    simp [hLb]

theorem yearLen_bounds (y : Nat) : 365 ≤ yearLen y ∧ yearLen y ≤ 366 := by
  unfold yearLen
  split <;> omega

theorem mondaySeek_eq (fuel t : Nat) (h : t % 7 ≤ fuel) :
    mondaySeek fuel t = t - t % 7 := by
  induction fuel generalizing t with
  | zero =>
    have h0 : t % 7 = 0 := by omega
    show t = t - t % 7
    omega
  | succ fuel ih =>
    show (if goWeekday t ≠ 1 then mondaySeek fuel (t - 1) else t) = t - t % 7
    by_cases hw : goWeekday t = 1
    · rw [if_neg (by simp [hw])]
      unfold goWeekday at hw
      omega
    · rw [if_pos hw]
      have h1 : t % 7 ≠ 0 := by
        unfold goWeekday at hw
        omega
      rw [ih (t - 1) (by omega)]
      omega

theorem isoWeek_shift (t i : Nat) (h0 : t % 7 = 0) (hi : i ≤ 6) :
    isoWeek (t + i) = isoWeek t := by
  rw [isoWeek_def, isoWeek_def,
    show t + i - (t + i) % 7 + 3 = t - t % 7 + 3 from by omega]

/-- ISO week of the probe `January 4 + 7k`: year `y`, week `k + 1`, as
long as the Thursday of that week is still inside year `y`. -/
theorem isoWeek_jan4_add (y k : Nat) (hy : 1 ≤ y)
    (hk : 6 - (daysBeforeYear y + 3) % 7 + 7 * k < yearLen y) :
    isoWeek (daysBeforeYear y + 3 + 7 * k) = (y, k + 1) := by
  have habs := absDate_daysBeforeYear y (6 - (daysBeforeYear y + 3) % 7 + 7 * k) hy hk
  rw [isoWeek_def,
    show daysBeforeYear y + 3 + 7 * k - (daysBeforeYear y + 3 + 7 * k) % 7 + 3
      = daysBeforeYear y + (6 - (daysBeforeYear y + 3) % 7 + 7 * k) from by omega,
    habs]
  show (y, (6 - (daysBeforeYear y + 3) % 7 + 7 * k) / 7 + 1) = (y, k + 1)
  rw [show (6 - (daysBeforeYear y + 3) % 7 + 7 * k) / 7 = k from by omega]

/-- The ISO week count of a year, via December 28, agrees with the count
of Thursdays from the first week's Thursday. -/
theorem isoWeeksIn_eq (y : Nat) (hy : 1 ≤ y) :
    isoWeeksIn y =
      (yearLen y - 1 - (6 - (daysBeforeYear y + 3) % 7)) / 7 + 1 := by
  obtain ⟨hL365, hL366⟩ := yearLen_bounds y
  unfold isoWeeksIn
  rw [dateDays_dec28 y, isoWeek_def]
  have hu : yearLen y - 1 - (daysBeforeYear y + yearLen y - 4) % 7 < yearLen y := by
    omega
  have habs := absDate_daysBeforeYear y
    (yearLen y - 1 - (daysBeforeYear y + yearLen y - 4) % 7) hy hu
  rw [show daysBeforeYear y + yearLen y - 4 -
        (daysBeforeYear y + yearLen y - 4) % 7 + 3
      = daysBeforeYear y +
        (yearLen y - 1 - (daysBeforeYear y + yearLen y - 4) % 7) from by omega,
    habs]
  show (yearLen y - 1 - (daysBeforeYear y + yearLen y - 4) % 7) / 7 + 1 = _
  rw [show (yearLen y - 1 - (daysBeforeYear y + yearLen y - 4) % 7) / 7
      = (yearLen y - 1 - (6 - (daysBeforeYear y + 3) % 7)) / 7 from by omega]

theorem loop1_reach (year week : Nat) (hy : 1 ≤ year)
    (hw2 : week ≤ isoWeeksIn year) :
    ∀ fuel j, 1 ≤ j → j ≤ week → week - j ≤ fuel →
      reviewWeekLoop1 year week fuel (dateDays year 1 4 + 7 * (j - 1))
        = dateDays year 1 4 + 7 * (week - 1) := by
  have hw2' := hw2
  rw [isoWeeksIn_eq year hy] at hw2'
  obtain ⟨hL365, hL366⟩ := yearLen_bounds year
  intro fuel
  induction fuel with
  | zero =>
    intro j h1 h2 h3
    have hje : j = week := by omega
    rw [hje]
    rfl
  | succ fuel ih =>
    intro j h1 h2 h3
    have hiso : isoWeek (dateDays year 1 4 + 7 * (j - 1)) = (year, j) := by
      rw [dateDays_jan4]
      have hb : 6 - (daysBeforeYear year + 3) % 7 + 7 * (j - 1) < yearLen year := by
        omega
      rw [isoWeek_jan4_add year (j - 1) hy hb,
        show j - 1 + 1 = j from by omega]
    rw [reviewWeekLoop1_succ, hiso]
    by_cases hjw : j < week
    · rw [if_pos (Or.inr ⟨rfl, hjw⟩),
        show dateDays year 1 4 + 7 * (j - 1) + 7
          = dateDays year 1 4 + 7 * ((j + 1) - 1) from by omega]
      exact ih (j + 1) (by omega) (by omega) (by omega)
    · rw [if_neg (by omega)]
      have hje : j = week := by omega
      rw [hje]

theorem loop2_stay (year week fuel t : Nat) (h : isoWeek t = (year, week)) :
    reviewWeekLoop2 year week fuel t = t := by
  cases fuel with
  | zero => rfl
  | succ f =>
    rw [reviewWeekLoop2_succ, h]
    rw [if_neg (by omega)]

/-- C3: for every valid `(week, year)` (week between 1 and the year's
ISO week count), the computed range starts on a Monday, ends six days
later, and every day of the range has ISO year/week equal to the request
(this includes weeks whose Monday lies in the previous Gregorian year,
since the probe only ever moves in whole weeks). -/
theorem c3_reviewWeekRange (week year : Nat) (hy : 1 ≤ year) (hw1 : 1 ≤ week)
    (hw2 : week ≤ isoWeeksIn year) :
    goWeekday (reviewWeekRange week year).1 = 1 ∧
    (reviewWeekRange week year).2 = (reviewWeekRange week year).1 + 6 ∧
    (∀ i, i ≤ 6 → isoWeek ((reviewWeekRange week year).1 + i) = (year, week)) := by
  have hwmax : isoWeeksIn year ≤ 53 := by
    rw [isoWeeksIn_eq year hy]
    have := (yearLen_bounds year).2
    omega
  have hd1 : reviewWeekLoop1 year week 60 (dateDays year 1 4)
      = dateDays year 1 4 + 7 * (week - 1) := by
    have h := loop1_reach year week hy hw2 60 1 le_rfl hw1 (by omega)
    simpa using h
  have hiso1 : isoWeek (dateDays year 1 4 + 7 * (week - 1)) = (year, week) := by
    have hw2' := hw2
    rw [isoWeeksIn_eq year hy] at hw2'
    obtain ⟨hL365, hL366⟩ := yearLen_bounds year
    rw [dateDays_jan4]
    have hb : 6 - (daysBeforeYear year + 3) % 7 + 7 * (week - 1) < yearLen year := by
      omega
    rw [isoWeek_jan4_add year (week - 1) hy hb,
      show week - 1 + 1 = week from by omega]
  have hd2 : reviewWeekLoop2 year week 60 (dateDays year 1 4 + 7 * (week - 1))
      = dateDays year 1 4 + 7 * (week - 1) := loop2_stay year week 60 _ hiso1
  have hms : mondaySeek 7 (dateDays year 1 4 + 7 * (week - 1))
      = dateDays year 1 4 + 7 * (week - 1)
        - (dateDays year 1 4 + 7 * (week - 1)) % 7 :=
    mondaySeek_eq 7 _ (by omega)
  have hr : reviewWeekRange week year =
      (dateDays year 1 4 + 7 * (week - 1)
         - (dateDays year 1 4 + 7 * (week - 1)) % 7,
       dateDays year 1 4 + 7 * (week - 1)
         - (dateDays year 1 4 + 7 * (week - 1)) % 7 + 6) := by
    unfold reviewWeekRange
    simp only [hd1, hd2, hms]
  rw [hr]
  refine ⟨?_, rfl, ?_⟩
  · show (dateDays year 1 4 + 7 * (week - 1)
      - (dateDays year 1 4 + 7 * (week - 1)) % 7 + 1) % 7 = 1
    omega
  · intro i hi
    have h0 : (dateDays year 1 4 + 7 * (week - 1)
        - (dateDays year 1 4 + 7 * (week - 1)) % 7) % 7 = 0 := by
      omega
    rw [isoWeek_shift _ i h0 hi]
    rw [isoWeek_def,
      show dateDays year 1 4 + 7 * (week - 1)
          - (dateDays year 1 4 + 7 * (week - 1)) % 7
          - (dateDays year 1 4 + 7 * (week - 1)
             - (dateDays year 1 4 + 7 * (week - 1)) % 7) % 7 + 3
        = dateDays year 1 4 + 7 * (week - 1)
          - (dateDays year 1 4 + 7 * (week - 1)) % 7 + 3 from by omega,
      ← isoWeek_def, hiso1]

theorem c3_reviewWeekRange_witness :
    goWeekday (reviewWeekRange 1 2026).1 = 1 ∧
    (reviewWeekRange 1 2026).2 = (reviewWeekRange 1 2026).1 + 6 ∧
    (∀ i, i ≤ 6 → isoWeek ((reviewWeekRange 1 2026).1 + i) = (2026, 1)) :=
  c3_reviewWeekRange 1 2026 (by norm_num) (by norm_num) (by decide)

/-- A daily journal file as seen by the yearly review: its base name
(e.g. `2025-03-14.md`) and its content. -/
structure DayFile : Type where
  name : GoStr
  content : GoStr

/-- Go `strings.TrimSuffix`. -/
def trimSuffix (s suf : GoStr) : GoStr :=
  if hasSuffix s suf then s.take (s.length - suf.length) else s

/-- Value of a decimal digit character. -/
def digitVal (c : Char) : Option Nat :=
  if '0' ≤ c ∧ c ≤ '9' then some (c.toNat - 48) else none

/-- Go `time.Parse("2006-01-02", s)` (standard library, an external
collaborator), reduced to the parsed (year, month, day): exactly ten
characters, digits in the date positions, dashes between, month 1..12
and day within the month.  `none` models the parse error, on which the
yearly review skips the file. -/
def parseDateISO (s : GoStr) : Option (Nat × Nat × Nat) :=
  match s with
  | [y1, y2, y3, y4, s1, m1, m2, s2, d1, d2] =>
    if s1 = '-' ∧ s2 = '-' then
      match digitVal y1, digitVal y2, digitVal y3, digitVal y4,
        digitVal m1, digitVal m2, digitVal d1, digitVal d2 with
      | some a, some b, some c, some d, some e, some f, some g, some h =>
        let y := ((a * 10 + b) * 10 + c) * 10 + d
        let m := e * 10 + f
        let day := g * 10 + h
        if 1 ≤ m ∧ m ≤ 12 ∧ 1 ≤ day ∧ day ≤ daysInMonth y m then
          some (y, m, day)
        else none
      | _, _, _, _, _, _, _, _ => none
    else none
  | _ => none

/-- The month a daily file is grouped under in `review.ReviewYear`
(lines 216-224): parse the base name without `.md` and take the month. -/
def fileMonth (f : DayFile) : Option Nat :=
  (parseDateISO (trimSuffix f.name (".md".data))).map (fun t => t.2.1)

/-- One step of building Go's `filesByMonth` map (append to the month's
slice; files that fail to parse are skipped). -/
def filesByMonthStep (acc : Nat → List DayFile) (f : DayFile) : Nat → List DayFile :=
  match fileMonth f with
  | none => acc
  | some m => fun k => if k = m then acc k ++ [f] else acc k

/-- Go's `filesByMonth` map of `review.ReviewYear`. -/
def filesByMonth (files : List DayFile) : Nat → List DayFile :=
  files.foldl filesByMonthStep (fun _ => [])

/-- Go `time.Month.String()` for months 1..12. -/
def monthName : Nat → GoStr
  | 1 => "January".data
  | 2 => "February".data
  | 3 => "March".data
  | 4 => "April".data
  | 5 => "May".data
  | 6 => "June".data
  | 7 => "July".data
  | 8 => "August".data
  | 9 => "September".data
  | 10 => "October".data
  | 11 => "November".data
  | 12 => "December".data
  | _ => []

/-- One bullet line of the yearly review
(`fmt.Sprintf("- **%s**: %s\n", dateStr, summary)`, line 245), with the
summary extracted from the file content by `journal.ExtractSummary`. -/
def dayBullet (f : DayFile) : GoStr :=
  "- **".data ++ trimSuffix f.name (".md".data) ++ "**: ".data
    ++ extractSummaryContent f.content ++ ['\n']

/-- One month block of the yearly review (lines 235-247): sub-heading,
one bullet per file, then a blank line. -/
def monthSection (m : Nat) (fs : List DayFile) : GoStr :=
  "### ".data ++ monthName m ++ ['\n', '\n']
    ++ (fs.foldl (fun acc f => acc ++ dayBullet f) []) ++ ['\n']

/-- Body of `review.ReviewYear` for a non-empty file list (lines
226-248): the "Monthly Summaries" heading, then the month loop January
through December, skipping months with no files. -/
def reviewYearBody (files : List DayFile) : GoStr :=
  "## Monthly Summaries\n\n".data ++
    (List.range' 1 12).foldl
      (fun acc m =>
        if (filesByMonth files m).isEmpty then acc
        else acc ++ monthSection m (filesByMonth files m))
      []

/-- The files of month `m`, in the original (chronological) order. -/
def monthGroup (files : List DayFile) (m : Nat) : List DayFile :=
  files.filter (fun f => fileMonth f == some m)

/-- Modelled from the spec (section 4.6, step 5): the yearly body as the
specification describes it — month sub-headings in calendar order
January through December, months with no entries skipped, one bullet
line per day of the month in chronological (input) order, a blank line
after each month. -/
def reviewYearBodySpec (files : List DayFile) : GoStr :=
  "## Monthly Summaries\n\n".data ++
    (((List.range' 1 12).filter (fun m => !(monthGroup files m).isEmpty)).map
      (fun m => monthSection m (monthGroup files m))).flatten

theorem foldl_filesByMonthStep (files : List DayFile) :
    ∀ (acc : Nat → List DayFile) (m : Nat),
      (files.foldl filesByMonthStep acc) m = acc m ++ monthGroup files m := by
  induction files with
  | nil =>
    intro acc m
    simp [monthGroup]
  | cons f fs ih =>
    intro acc m
    rw [List.foldl_cons, ih]
    unfold monthGroup
    rw [List.filter_cons]
    unfold filesByMonthStep
    cases hfm : fileMonth f with
    | none => simp [hfm, monthGroup]
    | some m2 =>
      by_cases hmm : m = m2
      · subst hmm
        simp [hfm, monthGroup]
      · simp [hfm, hmm, monthGroup, Ne.symm hmm]

theorem filesByMonth_eq_monthGroup (files : List DayFile) (m : Nat) :
    filesByMonth files m = monthGroup files m := by
  rw [filesByMonth, foldl_filesByMonthStep]
  simp

theorem foldl_sections (byM : Nat → List DayFile) (ms : List Nat) :
    ∀ acc : GoStr,
      ms.foldl
        (fun acc m =>
          if (byM m).isEmpty then acc else acc ++ monthSection m (byM m)) acc
      = acc ++ ((ms.filter (fun m => !(byM m).isEmpty)).map
          (fun m => monthSection m (byM m))).flatten := by
  induction ms with
  | nil =>
    intro acc
    simp
  | cons m ms ih =>
    intro acc
    rw [List.foldl_cons, List.filter_cons]
    by_cases h : (byM m).isEmpty = true
    · rw [if_pos h, ih]
      simp [h]
    · have hne : (byM m).isEmpty = false := by
        cases hc : (byM m).isEmpty
        · rfl
        · exact absurd hc h
      rw [if_neg h, ih]
      simp [hne]

/-- C8: the yearly review body equals its specification form — grouped
by calendar month, months emitted in January-through-December order with
empty months skipped, one `- **date**: summary` bullet per file in input
order within each month, and a blank line after each month; the map
groups are exactly the in-order filters, and any chronological order of
the input is preserved inside each month group. -/
theorem c8_reviewYearBody (files : List DayFile) :
    reviewYearBody files = reviewYearBodySpec files ∧
    (∀ m, filesByMonth files m = monthGroup files m) ∧
    (∀ key : DayFile → Nat,
      files.Pairwise (fun a b => key a ≤ key b) →
      ∀ m, (monthGroup files m).Pairwise (fun a b => key a ≤ key b)) := by
  refine ⟨?_, filesByMonth_eq_monthGroup files, ?_⟩
  · rw [reviewYearBody, reviewYearBodySpec]
    have hcong : ∀ m, filesByMonth files m = monthGroup files m :=
      filesByMonth_eq_monthGroup files
    have hfold : (List.range' 1 12).foldl
        (fun acc m =>
          if (filesByMonth files m).isEmpty then acc
          else acc ++ monthSection m (filesByMonth files m)) []
      = (List.range' 1 12).foldl
        (fun acc m =>
          if (monthGroup files m).isEmpty then acc
          else acc ++ monthSection m (monthGroup files m)) [] := by
      simp only [hcong]
    rw [hfold, foldl_sections]
    simp
  · intro key hsorted m
    exact hsorted.sublist (List.filter_sublist files)

theorem c8_reviewYearBody_witness :
    reviewYearBody
        [⟨"2025-01-02.md".data, "# T\nfirst summary\n\n# LOG\n".data⟩,
         ⟨"2025-03-04.md".data, "# T\nsecond summary\n\n# LOG\n".data⟩]
      = reviewYearBodySpec
        [⟨"2025-01-02.md".data, "# T\nfirst summary\n\n# LOG\n".data⟩,
         ⟨"2025-03-04.md".data, "# T\nsecond summary\n\n# LOG\n".data⟩] ∧
    (monthGroup
        [⟨"2025-01-02.md".data, "# T\nfirst summary\n\n# LOG\n".data⟩,
         ⟨"2025-03-04.md".data, "# T\nsecond summary\n\n# LOG\n".data⟩]
        1).Pairwise (fun a b => a.name.length ≤ b.name.length) :=
  ⟨(c8_reviewYearBody _).1,
   (c8_reviewYearBody _).2.2 (fun f => f.name.length)
     (by simp [List.pairwise_cons]) 1⟩

end LogBook
